import Mathlib

/-!
Verification development for the streaming partition planner of the OTB
repository (header `src/Modules/Core/Streaming/include/otbStreamingManager.h`).
The repository ships only the class declaration of `StreamingManager`; the
method bodies and the concrete splitter classes are not part of the source
tree, so the operational behaviour is modelled from the specification
(`spec.md`), faithful to its words, and the claims are settled against that
model.  The constants that do appear in the header (such as the default
value `1.0` of the `bias` parameter of `EstimateOptimalNumberOfDivisions`)
are taken from the header.
-/

namespace OTB

/-- Region: an axis-aligned 2-D box over the raster index space, with an
integer origin and non-negative integer extents, as in the spec's data
model. -/
structure Region where
  x : Int
  y : Int
  w : Nat
  h : Nat
deriving DecidableEq

/-- Membership of an index cell in a region. -/
def Region.mem (R : Region) (c : Int × Int) : Prop :=
  R.x ≤ c.1 ∧ c.1 < R.x + R.w ∧ R.y ≤ c.2 ∧ c.2 < R.y + R.h

instance (R : Region) (c : Int × Int) : Decidable (Region.mem R c) := by
  unfold Region.mem; infer_instance

/-- Ceiling division on naturals. -/
def ceilDiv (a b : Nat) : Nat := (a + b - 1) / b

lemma le_ceilDiv_mul (a b : Nat) (hb : 0 < b) : a ≤ ceilDiv a b * b := by
  by_contra hcon
  push_neg at hcon
  have h2 : (ceilDiv a b + 1) * b ≤ a + b - 1 := by
    have hs : (ceilDiv a b + 1) * b = ceilDiv a b * b + b := by ring
    omega
  have h3 : ceilDiv a b + 1 ≤ ceilDiv a b :=
    (Nat.le_div_iff_mul_le hb).mpr h2
  omega

lemma mul_lt_of_lt_ceilDiv (a b k : Nat) (hb : 0 < b) (hk : k < ceilDiv a b) :
    k * b < a := by
  have h1 : (k + 1) * b ≤ a + b - 1 := (Nat.le_div_iff_mul_le hb).mp hk
  have hs : (k + 1) * b = k * b + b := by ring
  omega

lemma ceilDiv_pos (a b : Nat) (ha : 0 < a) (hb : 0 < b) : 0 < ceilDiv a b := by
  rcases Nat.eq_zero_or_pos (ceilDiv a b) with h0 | h0
  · have := le_ceilDiv_mul a b hb
    rw [h0] at this
    simp at this
    omega
  · exact h0

lemma ceilDiv_le_self (a b : Nat) (hb : 0 < b) : ceilDiv a b ≤ a := by
  have h1 : a + b - 1 < (a + 1) * b := by
    have hab : a ≤ a * b := Nat.le_mul_of_pos_right a hb
    have hs : (a + 1) * b = a * b + b := by ring
    omega
  have := (Nat.div_lt_iff_lt_mul hb).mpr h1
  unfold ceilDiv
  omega

/-! ### Strip splitter

Modelled from the spec: (section 4.1) the repository's strip splitter
implementation is not under the source tree.  The region is divided along
the row axis into `N` contiguous bands, `N` clamped down to the height so
no band is empty; band sizes are computed by integer division with the
remainder distributed to the first `h % N` bands. -/

/-- Number of strips actually produced: the requested count clamped to the
height of the region (modelled from the spec, section 4.1). -/
def stripCount (R : Region) (N : Nat) : Nat := min N R.h

/-- Row offset of the i-th strip: the number of raster lines lying in
strips before strip `i` (modelled from the spec, section 4.1). -/
def stripOffset (R : Region) (N : Nat) (i : Nat) : Nat :=
  i * (R.h / stripCount R N) + min i (R.h % stripCount R N)

/-- Modelled from the spec: (section 4.1) the strip splitter implementation is missing from the source tree; the i-th band produced by the
strip splitter. -/
def stripSplit (R : Region) (N : Nat) (i : Nat) : Region :=
  { x := R.x
    y := R.y + (stripOffset R N i : Int)
    w := R.w
    h := R.h / stripCount R N + (if i < R.h % stripCount R N then 1 else 0) }

/-- Split table produced by the strip splitter. -/
def stripTable (R : Region) (N : Nat) : List Region :=
  (List.range (stripCount R N)).map (stripSplit R N)

/-! ### Tile splitter

Modelled from the spec: (section 4.1) the tile splitter implementation is missing from the source tree; a 2-D grid of `tw × th` tiles in
row-major enumeration; edge tiles are clipped to the region. -/

/-- Number of tiles in one row of the tile grid. -/
def tilesPerRow (R : Region) (tw : Nat) : Nat := ceilDiv R.w tw

/-- Number of tile rows in the tile grid. -/
def tileRows (R : Region) (th : Nat) : Nat := ceilDiv R.h th

/-- Total number of tiles of the tile grid. -/
def tileCount (R : Region) (tw th : Nat) : Nat :=
  tilesPerRow R tw * tileRows R th

/-- Modelled from the spec: (section 4.1) the tile splitter implementation is missing from the source tree; the i-th tile of the row-major
tile grid, clipped to the region. -/
def tileSplit (R : Region) (tw th : Nat) (i : Nat) : Region :=
  { x := R.x + ((i % tilesPerRow R tw) * tw : Nat)
    y := R.y + ((i / tilesPerRow R tw) * th : Nat)
    w := min tw (R.w - (i % tilesPerRow R tw) * tw)
    h := min th (R.h - (i / tilesPerRow R tw) * th) }

/-- Split table produced by the tile splitter. -/
def tileTable (R : Region) (tw th : Nat) : List Region :=
  (List.range (tileCount R tw th)).map (tileSplit R tw th)

/-! ### Budget resolution and the optimal-division search -/

/-- Modelled from the spec: (sections 3 and 6) the method body is missing from the source tree; also supported by the comment at
`otbStreamingManager.h` lines 111-113 (the method body is not under the
source tree): a requested budget of zero is a sentinel resolved from the
process-wide configuration at preparation time; any other request is
returned unchanged. -/
def GetActualAvailableRAMInBytes (cfg : Nat) (availableRAM : Nat) : Nat :=
  if availableRAM = 0 then cfg else availableRAM

/-- Default bias factor of the optimal-division search, taken from the
declaration `double bias = 1.0` at `otbStreamingManager.h` line 94. -/
def defaultBias : ℚ := 1

/-- Modelled from the spec: (section 4.2, optimal-division search) the
budget-mode implementations are missing from the source tree; a candidate split region is accepted exactly when its estimated memory
footprint fits the budget multiplied by the bias factor. -/
def acceptCandidate (est : Region → Nat) (budget : ℚ) (bias : ℚ)
    (cand : Region) : Bool :=
  decide ((est cand : ℚ) ≤ bias * budget)

/-- Modelled from the spec: (section 4.2, optimal-division search) the search
implementation is missing from the source tree; starting
from a candidate division count, accept the first count whose candidate
split fits; otherwise increase the count multiplicatively, capped at the
hard ceiling given by the number of elementary units along the split axis;
at the ceiling, accept unconditionally. -/
def optimalSearchFrom (accept : Nat → Bool) (hardCeil : Nat) (n : Nat) : Nat :=
  if hardCeil ≤ n then hardCeil
  else if accept n then n
  else optimalSearchFrom accept hardCeil (min (2 * n + 1) hardCeil)
termination_by hardCeil - n
decreasing_by
  simp_wf
  omega

/-- Modelled from the spec: (section 4.2) the body of the declared method is
missing from the source tree; the optimal-division search run
by the budget-driven modes, starting from one division.  The pipeline
descriptor is abstracted into the estimator function `est`; `cand n` is
the candidate split region at division count `n`. -/
def EstimateOptimalNumberOfDivisions (est : Region → Nat) (cfg : Nat)
    (availableRAM : Nat) (bias : ℚ) (cand : Nat → Region)
    (hardCeil : Nat) : Nat :=
  optimalSearchFrom
    (fun n => acceptCandidate est
      ((GetActualAvailableRAMInBytes cfg availableRAM : Nat) : ℚ) bias (cand n))
    hardCeil 1

/-- Modelled from the spec: (section 4.1) the tiled budget manager is missing
from the source tree; for the tiled budget mode the
tile dimension is chosen so that the tile grid has approximately the
desired number of divisions (square tiles with side about the square root
of area over count), and is at least one. -/
def tileDimForDivisions (R : Region) (n : Nat) : Nat :=
  max 1 (Nat.sqrt (R.w * R.h / max 1 n))

/-! ### Streaming modes and the planner -/

/-- Streaming mode, a tagged choice carrying the parameter relevant to it
(spec, section 3). -/
inductive StreamingMode where
  | strippedByBudget (budget : Nat)
  | strippedByLineCount (linesPerSplit : Nat)
  | tiledByBudget (budget : Nat)
  | tiledByDimension (tileW tileH : Nat)
deriving DecidableEq

/-- Configuration validity (spec, section 4.2): line counts and tile
dimensions must be positive; budgets (naturals here) are always
non-negative. -/
def validMode : StreamingMode → Prop
  | .strippedByLineCount L => 0 < L
  | .tiledByDimension tw th => 0 < tw ∧ 0 < th
  | _ => True

/-- Tile dimension used by the tiled budget mode: the dimension fitting the
division count found by the optimal-division search, whose hard ceiling is
the number of minimal (one-cell) tiles. -/
def tiledBudgetDim (est : Region → Nat) (cfg b : Nat) (R : Region) : Nat :=
  tileDimForDivisions R
    (EstimateOptimalNumberOfDivisions est cfg b defaultBias
      (fun n => tileSplit R (tileDimForDivisions R n) (tileDimForDivisions R n) 0)
      (R.w * R.h))

/-- Modelled from the spec: (section 4.2) the concrete streaming manager
implementations are missing from the source tree; the split table computed by
`PrepareStreaming` for a given mode, estimator, process-wide configuration
and region.  A degenerate region yields the empty table in every mode; the
line-count and tile-dimension modes never consult the estimator; the
budget-driven modes resolve the budget and run the optimal-division
search. -/
def computeSplits (est : Region → Nat) (cfg : Nat) (mode : StreamingMode)
    (R : Region) : List Region :=
  if R.w = 0 ∨ R.h = 0 then []
  else
    match mode with
    | .strippedByLineCount L => stripTable R (ceilDiv R.h L)
    | .strippedByBudget b =>
        stripTable R
          (EstimateOptimalNumberOfDivisions est cfg b defaultBias
            (fun n => stripSplit R n 0) R.h)
    | .tiledByDimension tw th => tileTable R tw th
    | .tiledByBudget b =>
        tileTable R (tiledBudgetDim est cfg b R) (tiledBudgetDim est cfg b R)

/-- Splitter strategy selected by the planner (spec, sections 2 and 4.1). -/
inductive SplitterKind where
  | strip
  | tile (tw th : Nat)
deriving DecidableEq

/-- Splitter selected for a mode. -/
def selectSplitter (est : Region → Nat) (cfg : Nat) (mode : StreamingMode)
    (R : Region) : SplitterKind :=
  match mode with
  | .strippedByBudget _ => .strip
  | .strippedByLineCount _ => .strip
  | .tiledByDimension tw th => .tile tw th
  | .tiledByBudget b => .tile (tiledBudgetDim est cfg b R) (tiledBudgetDim est cfg b R)

/-- Planner state: the configured mode together with the memoized plan
(the fields mirror `m_ComputedNumberOfSplits`, `m_Region` and `m_Splitter`
of the header, plus the memoized split table of the spec). -/
structure PlannerState where
  mode : StreamingMode
  m_ComputedNumberOfSplits : Nat
  m_Region : Region
  m_Splitter : SplitterKind
  splitTable : List Region
deriving DecidableEq

/-- Modelled from the spec: (section 4.2) the method body is missing from the
source tree; the one-shot preparation entry
point.  It recomputes the split table from the configured mode, the
estimator, the current process-wide configuration and the region, and
memoizes table, count, region and selected splitter, discarding any prior
plan. -/
def PrepareStreaming (est : Region → Nat) (cfg : Nat) (R : Region)
    (s : PlannerState) : PlannerState :=
  { s with
    m_Region := R
    m_ComputedNumberOfSplits := (computeSplits est cfg s.mode R).length
    m_Splitter := selectSplitter est cfg s.mode R
    splitTable := computeSplits est cfg s.mode R }

/-- Modelled from the spec: (section 4.2) the method body is missing from
the source tree; the accessor returns the memoized split count and leaves
the planner state unchanged. -/
def GetNumberOfSplits (s : PlannerState) : Nat × PlannerState :=
  (s.m_ComputedNumberOfSplits, s)

/-- Modelled from the spec: (sections 4.1 and 4.2) the method body is
missing from the source tree; the accessor returns the i-th memoized
split, signals an out-of-range index (`none`, never clamped), and leaves
the planner state unchanged. -/
def GetSplit (s : PlannerState) (i : Nat) : Option Region × PlannerState :=
  (if i < s.m_ComputedNumberOfSplits then s.splitTable[i]? else none, s)

/-- One accessor call (used to state the frame property of the accessors). -/
inductive AccessorOp where
  | countQuery
  | splitQuery (i : Nat)

/-- Run one accessor call against a planner state. -/
def runAccessor (s : PlannerState) : AccessorOp → (Nat ⊕ Option Region) × PlannerState
  | .countQuery => (Sum.inl (GetNumberOfSplits s).1, (GetNumberOfSplits s).2)
  | .splitQuery i => (Sum.inr (GetSplit s i).1, (GetSplit s i).2)

/-- Run a sequence of accessor calls, threading the planner state. -/
def runAccessors (s : PlannerState) : List AccessorOp → List (Nat ⊕ Option Region) × PlannerState
  | [] => ([], s)
  | op :: ops =>
      ((runAccessor s op).1 :: (runAccessors (runAccessor s op).2 ops).1,
       (runAccessors (runAccessor s op).2 ops).2)

/-! ### Partition lemmas for the strip splitter -/

lemma stripOffset_zero (R : Region) (N : Nat) : stripOffset R N 0 = 0 := by
  simp [stripOffset]

lemma stripOffset_succ (R : Region) (N i : Nat) :
    stripOffset R N (i + 1) = stripOffset R N i + (stripSplit R N i).h := by
  show (i + 1) * (R.h / stripCount R N) + min (i + 1) (R.h % stripCount R N)
      = i * (R.h / stripCount R N) + min i (R.h % stripCount R N)
        + (R.h / stripCount R N + (if i < R.h % stripCount R N then 1 else 0))
  have hs : (i + 1) * (R.h / stripCount R N)
      = i * (R.h / stripCount R N) + R.h / stripCount R N := by ring
  rcases Nat.lt_or_ge i (R.h % stripCount R N) with hlt | hge
  · rw [if_pos hlt]
    omega
  · rw [if_neg (by omega)]
    omega

lemma stripOffset_mono (R : Region) (N : Nat) :
    ∀ a b : Nat, a ≤ b → stripOffset R N a ≤ stripOffset R N b := by
  have h1 : ∀ n, stripOffset R N n ≤ stripOffset R N (n + 1) := by
    intro n
    have := stripOffset_succ R N n
    omega
  exact fun a b hab => monotone_nat_of_le_succ h1 hab

lemma stripOffset_top (R : Region) (N : Nat) (hc : 0 < stripCount R N) :
    stripOffset R N (stripCount R N) = R.h := by
  show stripCount R N * (R.h / stripCount R N) + min (stripCount R N) (R.h % stripCount R N) = R.h
  have hmod : R.h % stripCount R N < stripCount R N := Nat.mod_lt _ hc
  rw [Nat.min_eq_right (le_of_lt hmod)]
  exact Nat.div_add_mod R.h (stripCount R N)

lemma band_exists (f : Nat → Nat) (N t : Nat) (h0 : f 0 = 0) (ht : t < f N) :
    ∃ i, i < N ∧ f i ≤ t ∧ t < f (i + 1) := by
  induction N with
  | zero => omega
  | succ n ih =>
      by_cases hc : t < f n
      · obtain ⟨i, h1, h2, h3⟩ := ih hc
        exact ⟨i, Nat.lt_succ_of_lt h1, h2, h3⟩
      · exact ⟨n, Nat.lt_succ_self n, Nat.le_of_not_lt hc, ht⟩

lemma band_unique (f : Nat → Nat) (hmono : ∀ a b : Nat, a ≤ b → f a ≤ f b)
    (i j t : Nat) (hi1 : f i ≤ t) (hi2 : t < f (i + 1))
    (hj1 : f j ≤ t) (hj2 : t < f (j + 1)) : i = j := by
  by_contra hne
  rcases Nat.lt_or_ge i j with hlt | hge
  · have := hmono (i + 1) j hlt
    omega
  · have hlt : j < i := by omega
    have := hmono (j + 1) i hlt
    omega

lemma strip_mem_iff (R : Region) (N i : Nat) (c : Int × Int) :
    Region.mem (stripSplit R N i) c ↔
      R.x ≤ c.1 ∧ c.1 < R.x + R.w ∧
      R.y + (stripOffset R N i : Int) ≤ c.2 ∧
      c.2 < R.y + (stripOffset R N (i + 1) : Int) := by
  have hs : stripOffset R N (i + 1) = stripOffset R N i + (stripSplit R N i).h :=
    stripOffset_succ R N i
  have hx : (stripSplit R N i).x = R.x := rfl
  have hy : (stripSplit R N i).y = R.y + (stripOffset R N i : Int) := rfl
  have hw : (stripSplit R N i).w = R.w := rfl
  unfold Region.mem
  rw [hx, hy, hw]
  constructor
  · rintro ⟨h1, h2, h3, h4⟩
    refine ⟨h1, h2, h3, ?_⟩
    omega
  · rintro ⟨h1, h2, h3, h4⟩
    refine ⟨h1, h2, h3, ?_⟩
    omega

lemma stripTable_length (R : Region) (N : Nat) :
    (stripTable R N).length = stripCount R N := by
  simp [stripTable]

lemma stripTable_get (R : Region) (N : Nat) (j : Fin (stripTable R N).length) :
    (stripTable R N).get j = stripSplit R N j.1 := by
  simp [stripTable]

lemma stripTable_partition (R : Region) (N : Nat) (hN : 0 < N)
    (hh : 0 < R.h) :
    (∀ c : Int × Int, Region.mem R c ↔
        ∃ j : Fin (stripTable R N).length,
          Region.mem ((stripTable R N).get j) c) ∧
    ∀ (j k : Fin (stripTable R N).length) (c : Int × Int),
        Region.mem ((stripTable R N).get j) c →
        Region.mem ((stripTable R N).get k) c → j = k := by
  have hc : 0 < stripCount R N := by
    unfold stripCount
    omega
  have htop : stripOffset R N (stripCount R N) = R.h := stripOffset_top R N hc
  have hzero : stripOffset R N 0 = 0 := stripOffset_zero R N
  have hmono := stripOffset_mono R N
  constructor
  · intro c
    constructor
    · rintro ⟨h1, h2, h3, h4⟩
      have ht : (c.2 - R.y).toNat < stripOffset R N (stripCount R N) := by omega
      obtain ⟨i, hi1, hi2, hi3⟩ :=
        band_exists (stripOffset R N) (stripCount R N) ((c.2 - R.y).toNat) hzero ht
      have hlen : i < (stripTable R N).length := by
        rw [stripTable_length]; exact hi1
      refine ⟨⟨i, hlen⟩, ?_⟩
      rw [stripTable_get]
      have hv : (⟨i, hlen⟩ : Fin (stripTable R N).length).1 = i := rfl
      rw [hv, strip_mem_iff]
      refine ⟨h1, h2, by omega, by omega⟩
    · rintro ⟨j, hj⟩
      rw [stripTable_get, strip_mem_iff] at hj
      obtain ⟨h1, h2, h3, h4⟩ := hj
      have hjlt : j.1 + 1 ≤ stripCount R N := by
        have hl := stripTable_length R N
        have h2 := j.2
        omega
      have hle : stripOffset R N (j.1 + 1) ≤ stripOffset R N (stripCount R N) :=
        hmono _ _ hjlt
      refine ⟨h1, h2, ?_, ?_⟩
      · have : (0 : Int) ≤ (stripOffset R N j.1 : Int) := by positivity
        omega
      · omega
  · intro j k c hj hk
    rw [stripTable_get, strip_mem_iff] at hj hk
    obtain ⟨hj1, hj2, hj3, hj4⟩ := hj
    obtain ⟨hk1, hk2, hk3, hk4⟩ := hk
    have heq : j.1 = k.1 := by
      apply band_unique (stripOffset R N) hmono j.1 k.1 ((c.2 - R.y).toNat)
      · omega
      · omega
      · omega
      · omega
    exact Fin.ext heq

/-! ### Partition lemmas for the tile splitter -/

lemma tileTable_length (R : Region) (tw th : Nat) :
    (tileTable R tw th).length = tileCount R tw th := by
  simp [tileTable]

lemma tileTable_get (R : Region) (tw th : Nat) (j : Fin (tileTable R tw th).length) :
    (tileTable R tw th).get j = tileSplit R tw th j.1 := by
  simp [tileTable]

lemma tile_mem_iff (R : Region) (tw th i : Nat) (c : Int × Int) :
    Region.mem (tileSplit R tw th i) c ↔
      R.x + ((i % tilesPerRow R tw) * tw : Nat) ≤ c.1 ∧
      c.1 < R.x + ((i % tilesPerRow R tw) * tw : Nat)
          + (min tw (R.w - (i % tilesPerRow R tw) * tw) : Nat) ∧
      R.y + ((i / tilesPerRow R tw) * th : Nat) ≤ c.2 ∧
      c.2 < R.y + ((i / tilesPerRow R tw) * th : Nat)
          + (min th (R.h - (i / tilesPerRow R tw) * th) : Nat) :=
  Iff.rfl

lemma tileTable_partition (R : Region) (tw th : Nat) (htw : 0 < tw)
    (hth : 0 < th) (hw : 0 < R.w) (hh : 0 < R.h) :
    (∀ c : Int × Int, Region.mem R c ↔
        ∃ j : Fin (tileTable R tw th).length,
          Region.mem ((tileTable R tw th).get j) c) ∧
    ∀ (j k : Fin (tileTable R tw th).length) (c : Int × Int),
        Region.mem ((tileTable R tw th).get j) c →
        Region.mem ((tileTable R tw th).get k) c → j = k := by
  have hcols0 : 0 < tilesPerRow R tw := ceilDiv_pos R.w tw hw htw
  have hrows0 : 0 < tileRows R th := ceilDiv_pos R.h th hh hth
  have hwle : R.w ≤ tilesPerRow R tw * tw := le_ceilDiv_mul R.w tw htw
  have hhle : R.h ≤ tileRows R th * th := le_ceilDiv_mul R.h th hth
  constructor
  · intro c
    constructor
    · rintro ⟨h1, h2, h3, h4⟩
      set u := (c.1 - R.x).toNat with hu
      set v := (c.2 - R.y).toNat with hv
      have huw : u < R.w := by omega
      have hvh : v < R.h := by omega
      have hcol : u / tw < tilesPerRow R tw :=
        (Nat.div_lt_iff_lt_mul htw).mpr (lt_of_lt_of_le huw hwle)
      have hrow : v / th < tileRows R th :=
        (Nat.div_lt_iff_lt_mul hth).mpr (lt_of_lt_of_le hvh hhle)
      set col := u / tw with hcoldef
      set row := v / th with hrowdef
      have hi : row * tilesPerRow R tw + col < tileCount R tw th := by
        have hs : (row + 1) * tilesPerRow R tw
            = row * tilesPerRow R tw + tilesPerRow R tw := by ring
        have hle2 : (row + 1) * tilesPerRow R tw
            ≤ tileRows R th * tilesPerRow R tw :=
          Nat.mul_le_mul_right _ hrow
        have hco : tileRows R th * tilesPerRow R tw = tileCount R tw th := by
          unfold tileCount
          ring
        omega
      have hlen : row * tilesPerRow R tw + col < (tileTable R tw th).length := by
        rw [tileTable_length]; exact hi
      refine ⟨⟨row * tilesPerRow R tw + col, hlen⟩, ?_⟩
      rw [tileTable_get]
      have hv1 : (⟨row * tilesPerRow R tw + col, hlen⟩ :
          Fin (tileTable R tw th).length).1 = row * tilesPerRow R tw + col := rfl
      rw [hv1, tile_mem_iff]
      have hiform : row * tilesPerRow R tw + col = col + row * tilesPerRow R tw := by
        ring
      have himod : (row * tilesPerRow R tw + col) % tilesPerRow R tw = col := by
        rw [hiform, Nat.add_mul_mod_self_right]
        exact Nat.mod_eq_of_lt hcol
      have hidiv : (row * tilesPerRow R tw + col) / tilesPerRow R tw = row := by
        rw [hiform, Nat.add_mul_div_right _ _ hcols0]
        rw [Nat.div_eq_of_lt hcol]
        omega
      rw [himod, hidiv]
      have hcl : col * tw ≤ u := Nat.div_mul_le_self u tw
      have hrl : row * th ≤ v := Nat.div_mul_le_self v th
      have hdmu : tw * col + u % tw = u := Nat.div_add_mod u tw
      have hdmv : th * row + v % th = v := Nat.div_add_mod v th
      have hmodu : u % tw < tw := Nat.mod_lt u htw
      have hmodv : v % th < th := Nat.mod_lt v hth
      have hcou : tw * col = col * tw := Nat.mul_comm tw col
      have hcov : th * row = row * th := Nat.mul_comm th row
      have hclt : col * tw < R.w := mul_lt_of_lt_ceilDiv R.w tw col htw hcol
      have hrlt : row * th < R.h := mul_lt_of_lt_ceilDiv R.h th row hth hrow
      refine ⟨by omega, ?_, by omega, ?_⟩
      · rcases Nat.le_total tw (R.w - col * tw) with hmin | hmin
        · rw [Nat.min_eq_left hmin]
          omega
        · rw [Nat.min_eq_right hmin]
          omega
      · rcases Nat.le_total th (R.h - row * th) with hmin | hmin
        · rw [Nat.min_eq_left hmin]
          omega
        · rw [Nat.min_eq_right hmin]
          omega
    · rintro ⟨j, hj⟩
      rw [tileTable_get, tile_mem_iff] at hj
      obtain ⟨h1, h2, h3, h4⟩ := hj
      have hcol : j.1 % tilesPerRow R tw < tilesPerRow R tw :=
        Nat.mod_lt _ hcols0
      have hjlt : j.1 < tileCount R tw th := by
        have hl := tileTable_length R tw th
        have h5 := j.2
        omega
      have hrow : j.1 / tilesPerRow R tw < tileRows R th := by
        apply (Nat.div_lt_iff_lt_mul hcols0).mpr
        have hco : tileRows R th * tilesPerRow R tw = tileCount R tw th := by
          unfold tileCount; ring
        omega
      have hclt : (j.1 % tilesPerRow R tw) * tw < R.w :=
        mul_lt_of_lt_ceilDiv R.w tw _ htw hcol
      have hrlt : (j.1 / tilesPerRow R tw) * th < R.h :=
        mul_lt_of_lt_ceilDiv R.h th _ hth hrow
      have hminw : min tw (R.w - (j.1 % tilesPerRow R tw) * tw)
          ≤ R.w - (j.1 % tilesPerRow R tw) * tw := Nat.min_le_right _ _
      have hminh : min th (R.h - (j.1 / tilesPerRow R tw) * th)
          ≤ R.h - (j.1 / tilesPerRow R tw) * th := Nat.min_le_right _ _
      exact ⟨by omega, by omega, by omega, by omega⟩
  · intro j k c hj hk
    rw [tileTable_get, tile_mem_iff] at hj hk
    obtain ⟨hj1, hj2, hj3, hj4⟩ := hj
    obtain ⟨hk1, hk2, hk3, hk4⟩ := hk
    set u := (c.1 - R.x).toNat with hu
    set v := (c.2 - R.y).toNat with hv
    have hmono_w : ∀ a b : Nat, a ≤ b → a * tw ≤ b * tw :=
      fun a b hab => Nat.mul_le_mul_right tw hab
    have hmono_h : ∀ a b : Nat, a ≤ b → a * th ≤ b * th :=
      fun a b hab => Nat.mul_le_mul_right th hab
    have hminwj : min tw (R.w - (j.1 % tilesPerRow R tw) * tw) ≤ tw :=
      Nat.min_le_left _ _
    have hminwk : min tw (R.w - (k.1 % tilesPerRow R tw) * tw) ≤ tw :=
      Nat.min_le_left _ _
    have hminhj : min th (R.h - (j.1 / tilesPerRow R tw) * th) ≤ th :=
      Nat.min_le_left _ _
    have hminhk : min th (R.h - (k.1 / tilesPerRow R tw) * th) ≤ th :=
      Nat.min_le_left _ _
    have hsj : (j.1 % tilesPerRow R tw + 1) * tw
        = (j.1 % tilesPerRow R tw) * tw + tw := by ring
    have hsk : (k.1 % tilesPerRow R tw + 1) * tw
        = (k.1 % tilesPerRow R tw) * tw + tw := by ring
    have hcoleq : j.1 % tilesPerRow R tw = k.1 % tilesPerRow R tw := by
      apply band_unique (fun m => m * tw) hmono_w _ _ u
      · omega
      · omega
      · omega
      · omega
    have hsj2 : (j.1 / tilesPerRow R tw + 1) * th
        = (j.1 / tilesPerRow R tw) * th + th := by ring
    have hsk2 : (k.1 / tilesPerRow R tw + 1) * th
        = (k.1 / tilesPerRow R tw) * th + th := by ring
    have hroweq : j.1 / tilesPerRow R tw = k.1 / tilesPerRow R tw := by
      apply band_unique (fun m => m * th) hmono_h _ _ v
      · omega
      · omega
      · omega
      · omega
    have hdj : tilesPerRow R tw * (j.1 / tilesPerRow R tw) + j.1 % tilesPerRow R tw
        = j.1 := Nat.div_add_mod j.1 (tilesPerRow R tw)
    have hdk : tilesPerRow R tw * (k.1 / tilesPerRow R tw) + k.1 % tilesPerRow R tw
        = k.1 := Nat.div_add_mod k.1 (tilesPerRow R tw)
    have hcong : tilesPerRow R tw * (j.1 / tilesPerRow R tw)
        = tilesPerRow R tw * (k.1 / tilesPerRow R tw) := by
      rw [hroweq]
    apply Fin.ext
    omega

/-! ### Lemmas on the optimal-division search -/

lemma optimalSearchFrom_le (accept : Nat → Bool) (hardCeil : Nat) :
    ∀ n, optimalSearchFrom accept hardCeil n ≤ hardCeil := by
  have H : ∀ k n, hardCeil - n ≤ k →
      optimalSearchFrom accept hardCeil n ≤ hardCeil := by
    intro k
    induction k with
    | zero =>
        intro n hn
        rw [optimalSearchFrom, if_pos (by omega)]
    | succ k ih =>
        intro n hn
        rw [optimalSearchFrom]
        by_cases h1 : hardCeil ≤ n
        · rw [if_pos h1]
        · rw [if_neg h1]
          by_cases h2 : accept n
          · rw [if_pos h2]; omega
          · rw [if_neg h2]
            exact ih _ (by omega)
  intro n
  exact H (hardCeil - n) n le_rfl

lemma optimalSearchFrom_lower (accept : Nat → Bool) (hardCeil : Nat) :
    ∀ n, min n hardCeil ≤ optimalSearchFrom accept hardCeil n := by
  have H : ∀ k n, hardCeil - n ≤ k →
      min n hardCeil ≤ optimalSearchFrom accept hardCeil n := by
    intro k
    induction k with
    | zero =>
        intro n hn
        rw [optimalSearchFrom, if_pos (by omega)]
        omega
    | succ k ih =>
        intro n hn
        rw [optimalSearchFrom]
        by_cases h1 : hardCeil ≤ n
        · rw [if_pos h1]; omega
        · rw [if_neg h1]
          by_cases h2 : accept n
          · rw [if_pos h2]; omega
          · rw [if_neg h2]
            have := ih (min (2 * n + 1) hardCeil) (by omega)
            omega
  intro n
  exact H (hardCeil - n) n le_rfl

lemma optimalSearchFrom_reject (accept : Nat → Bool) (hardCeil : Nat)
    (hrej : ∀ n, accept n = false) :
    ∀ n, optimalSearchFrom accept hardCeil n = hardCeil := by
  have H : ∀ k n, hardCeil - n ≤ k →
      optimalSearchFrom accept hardCeil n = hardCeil := by
    intro k
    induction k with
    | zero =>
        intro n hn
        rw [optimalSearchFrom, if_pos (by omega)]
    | succ k ih =>
        intro n hn
        rw [optimalSearchFrom]
        by_cases h1 : hardCeil ≤ n
        · rw [if_pos h1]
        · rw [if_neg h1, if_neg (by rw [hrej n]; exact Bool.false_ne_true)]
          exact ih _ (by omega)
  intro n
  exact H (hardCeil - n) n le_rfl

lemma optimalSearchFrom_stops_iff (accept : Nat → Bool) (hardCeil n : Nat)
    (hn : n < hardCeil) :
    optimalSearchFrom accept hardCeil n = n ↔ accept n = true := by
  rw [optimalSearchFrom, if_neg (by omega)]
  by_cases h2 : accept n
  · rw [if_pos h2]
    simp [h2]
  · rw [if_neg h2]
    constructor
    · intro heq
      exfalso
      have hlow := optimalSearchFrom_lower accept hardCeil (min (2 * n + 1) hardCeil)
      omega
    · intro h
      exact absurd h h2

lemma EstimateOptimalNumberOfDivisions_pos (est : Region → Nat) (cfg aRAM : Nat)
    (bias : ℚ) (cand : Nat → Region) (hardCeil : Nat) (h1 : 0 < hardCeil) :
    0 < EstimateOptimalNumberOfDivisions est cfg aRAM bias cand hardCeil := by
  unfold EstimateOptimalNumberOfDivisions
  have := optimalSearchFrom_lower
    (fun n => acceptCandidate est
      ((GetActualAvailableRAMInBytes cfg aRAM : Nat) : ℚ) bias (cand n)) hardCeil 1
  omega

lemma EstimateOptimalNumberOfDivisions_le (est : Region → Nat) (cfg aRAM : Nat)
    (bias : ℚ) (cand : Nat → Region) (hardCeil : Nat) :
    EstimateOptimalNumberOfDivisions est cfg aRAM bias cand hardCeil ≤ hardCeil := by
  unfold EstimateOptimalNumberOfDivisions
  exact optimalSearchFrom_le _ hardCeil 1

/-! ### Dispatch lemmas for `computeSplits` -/

lemma computeSplits_lineCount (est : Region → Nat) (cfg L : Nat) (R : Region)
    (hnd : ¬(R.w = 0 ∨ R.h = 0)) :
    computeSplits est cfg (.strippedByLineCount L) R
      = stripTable R (ceilDiv R.h L) := by
  unfold computeSplits
  rw [if_neg hnd]

lemma computeSplits_stripBudget (est : Region → Nat) (cfg b : Nat) (R : Region)
    (hnd : ¬(R.w = 0 ∨ R.h = 0)) :
    computeSplits est cfg (.strippedByBudget b) R
      = stripTable R
          (EstimateOptimalNumberOfDivisions est cfg b defaultBias
            (fun n => stripSplit R n 0) R.h) := by
  unfold computeSplits
  rw [if_neg hnd]

lemma computeSplits_tileDim (est : Region → Nat) (cfg tw th : Nat) (R : Region)
    (hnd : ¬(R.w = 0 ∨ R.h = 0)) :
    computeSplits est cfg (.tiledByDimension tw th) R = tileTable R tw th := by
  unfold computeSplits
  rw [if_neg hnd]

lemma computeSplits_tileBudget (est : Region → Nat) (cfg b : Nat) (R : Region)
    (hnd : ¬(R.w = 0 ∨ R.h = 0)) :
    computeSplits est cfg (.tiledByBudget b) R
      = tileTable R (tiledBudgetDim est cfg b R) (tiledBudgetDim est cfg b R) := by
  unfold computeSplits
  rw [if_neg hnd]

lemma tiledBudgetDim_pos (est : Region → Nat) (cfg b : Nat) (R : Region) :
    0 < tiledBudgetDim est cfg b R := by
  unfold tiledBudgetDim tileDimForDivisions
  omega

/-! ### Claim theorems -/

/-- Claim C1: for every estimator, configuration, valid streaming mode and
non-degenerate region, preparation produces a split table that partitions
the region exactly: every index cell of the region lies in some split, no
split reaches outside the region, and no cell lies in two distinct
splits. -/
theorem C1_splits_partition_region (est : Region → Nat) (cfg : Nat)
    (mode : StreamingMode) (R : Region) (hv : validMode mode)
    (hw : 0 < R.w) (hh : 0 < R.h) :
    (∀ c : Int × Int, Region.mem R c ↔
        ∃ j : Fin (computeSplits est cfg mode R).length,
          Region.mem ((computeSplits est cfg mode R).get j) c) ∧
    ∀ (j k : Fin (computeSplits est cfg mode R).length) (c : Int × Int),
        Region.mem ((computeSplits est cfg mode R).get j) c →
        Region.mem ((computeSplits est cfg mode R).get k) c → j = k := by
  have hnd : ¬(R.w = 0 ∨ R.h = 0) := by omega
  cases mode with
  | strippedByBudget b =>
      rw [computeSplits_stripBudget est cfg b R hnd]
      exact stripTable_partition R _
        (EstimateOptimalNumberOfDivisions_pos est cfg b defaultBias _ R.h hh) hh
  | strippedByLineCount L =>
      have hL : 0 < L := hv
      rw [computeSplits_lineCount est cfg L R hnd]
      exact stripTable_partition R _ (ceilDiv_pos R.h L hh hL) hh
  | tiledByBudget b =>
      rw [computeSplits_tileBudget est cfg b R hnd]
      exact tileTable_partition R _ _ (tiledBudgetDim_pos est cfg b R)
        (tiledBudgetDim_pos est cfg b R) hw hh
  | tiledByDimension tw th =>
      obtain ⟨htw, hth⟩ := hv
      rw [computeSplits_tileDim est cfg tw th R hnd]
      exact tileTable_partition R tw th htw hth hw hh

/-- Witness for claim C1: the partition property at a concrete mode and
region. -/
theorem C1_splits_partition_region_witness :
    (∀ c : Int × Int, Region.mem ⟨0, 0, 4, 5⟩ c ↔
        ∃ j : Fin (computeSplits (fun _ => 0) 0
            (.strippedByLineCount 3) ⟨0, 0, 4, 5⟩).length,
          Region.mem ((computeSplits (fun _ => 0) 0
            (.strippedByLineCount 3) ⟨0, 0, 4, 5⟩).get j) c) ∧
    ∀ (j k : Fin (computeSplits (fun _ => 0) 0
          (.strippedByLineCount 3) ⟨0, 0, 4, 5⟩).length) (c : Int × Int),
        Region.mem ((computeSplits (fun _ => 0) 0
          (.strippedByLineCount 3) ⟨0, 0, 4, 5⟩).get j) c →
        Region.mem ((computeSplits (fun _ => 0) 0
          (.strippedByLineCount 3) ⟨0, 0, 4, 5⟩).get k) c → j = k :=
  C1_splits_partition_region (fun _ => 0) 0 (.strippedByLineCount 3)
    ⟨0, 0, 4, 5⟩ (by show (0 : Nat) < 3; decide) (by decide) (by decide)

/-- Claim C3 (confirmed): the tile-dimension mode yields exactly
`ceilDiv W tw * ceilDiv H th` splits, enumerated row-major (split `i` is
the tile at row `i / tilesPerRow`, column `i % tilesPerRow`), boundary
tiles clipped to the region and never overflowing it; for a 1000 by 500
region with 256 by 256 tiles there are 8 splits and split 7 (grid row 1,
column 3) has origin `(768, 256)` and size `(232, 244)`. -/
theorem C3_tiledByDimension_exact (est : Region → Nat) (cfg : Nat)
    (R : Region) (tw th : Nat) (htw : 0 < tw) (hth : 0 < th)
    (hw : 0 < R.w) (hh : 0 < R.h) :
    (computeSplits est cfg (.tiledByDimension tw th) R).length
        = ceilDiv R.w tw * ceilDiv R.h th ∧
    (∀ j : Fin (computeSplits est cfg (.tiledByDimension tw th) R).length,
        (computeSplits est cfg (.tiledByDimension tw th) R).get j
          = { x := R.x + ((j.1 % ceilDiv R.w tw) * tw : Nat),
              y := R.y + ((j.1 / ceilDiv R.w tw) * th : Nat),
              w := min tw (R.w - (j.1 % ceilDiv R.w tw) * tw),
              h := min th (R.h - (j.1 / ceilDiv R.w tw) * th) }) ∧
    (∀ j : Fin (computeSplits est cfg (.tiledByDimension tw th) R).length,
        ∀ c : Int × Int,
          Region.mem ((computeSplits est cfg (.tiledByDimension tw th) R).get j) c →
          Region.mem R c) ∧
    (computeSplits est cfg (.tiledByDimension 256 256) ⟨0, 0, 1000, 500⟩).length
        = 8 ∧
    (computeSplits est cfg (.tiledByDimension 256 256) ⟨0, 0, 1000, 500⟩)[7]?
        = some ⟨768, 256, 232, 244⟩ := by
  have hnd : ¬(R.w = 0 ∨ R.h = 0) := by omega
  rw [computeSplits_tileDim est cfg tw th R hnd]
  refine ⟨?_, ?_, ?_, ?_, ?_⟩
  · rw [tileTable_length]
    rfl
  · intro j
    rw [tileTable_get]
    rfl
  · intro j c hm
    exact ((tileTable_partition R tw th htw hth hw hh).1 c).mpr ⟨j, hm⟩
  · rfl
  · rfl

/-- Witness for claim C3 at a concrete region and tile size. -/
theorem C3_tiledByDimension_exact_witness :
    (computeSplits (fun _ => 0) 0 (.tiledByDimension 3 2) ⟨0, 0, 7, 5⟩).length
        = ceilDiv 7 3 * ceilDiv 5 2 ∧
    (∀ j : Fin (computeSplits (fun _ => 0) 0
        (.tiledByDimension 3 2) ⟨0, 0, 7, 5⟩).length,
        (computeSplits (fun _ => 0) 0 (.tiledByDimension 3 2) ⟨0, 0, 7, 5⟩).get j
          = { x := (0 : Int) + ((j.1 % ceilDiv 7 3) * 3 : Nat),
              y := (0 : Int) + ((j.1 / ceilDiv 7 3) * 2 : Nat),
              w := min 3 (7 - (j.1 % ceilDiv 7 3) * 3),
              h := min 2 (5 - (j.1 / ceilDiv 7 3) * 2) }) ∧
    (∀ j : Fin (computeSplits (fun _ => 0) 0
        (.tiledByDimension 3 2) ⟨0, 0, 7, 5⟩).length,
        ∀ c : Int × Int,
          Region.mem ((computeSplits (fun _ => 0) 0
            (.tiledByDimension 3 2) ⟨0, 0, 7, 5⟩).get j) c →
          Region.mem ⟨0, 0, 7, 5⟩ c) ∧
    (computeSplits (fun _ => 0) 0
        (.tiledByDimension 256 256) ⟨0, 0, 1000, 500⟩).length = 8 ∧
    (computeSplits (fun _ => 0) 0
        (.tiledByDimension 256 256) ⟨0, 0, 1000, 500⟩)[7]?
        = some ⟨768, 256, 232, 244⟩ :=
  C3_tiledByDimension_exact (fun _ => 0) 0 ⟨0, 0, 7, 5⟩ 3 2
    (by decide) (by decide) (by decide) (by decide)

/-- Counterexample to claim C2 as stated: for a 1000 by 7 region with
linesPerSplit 5 there are ceilDiv 7 5 = 2 splits, and the claim predicts
heights 5 and 7 - 5 = 2; but the strip splitter of the spec distributes
the remainder over the first bands, producing heights 4 and 3, so split 0
does not have height linesPerSplit. -/
theorem C2_strippedByLineCount_counterexample :
    (computeSplits (fun _ => 0) 0 (.strippedByLineCount 5)
        ⟨0, 0, 1000, 7⟩).map Region.h = [4, 3] ∧
    ¬ (computeSplits (fun _ => 0) 0 (.strippedByLineCount 5)
        ⟨0, 0, 1000, 7⟩).map Region.h = [5, 2] := by
  constructor
  · rfl
  · decide

/-- Claim C2 (amended): for every region of positive width and height H
and every positive linesPerSplit L, StrippedByLineCount yields exactly
N = ceilDiv H L splits; split i starts i*(H/N) + min i (H mod N) rows
below the top of the region and has height H/N + 1 for i < H mod N and
H/N otherwise (the remainder is distributed to the first bands, so each
split has height L only when the division is exact); in particular for a
1000 by 500 region with L = 100 there are 5 splits, split 0 has origin
(0,0) and size (1000,100) and split 4 has origin (0,400) and size
(1000,100). Neither the estimator nor the configuration is consulted in
this mode. -/
theorem C2_strippedByLineCount_splits (est : Region → Nat) (cfg L : Nat)
    (R : Region) (hL : 0 < L) (hw : 0 < R.w) (hh : 0 < R.h) :
    (computeSplits est cfg (.strippedByLineCount L) R).length = ceilDiv R.h L ∧
    (∀ j : Fin (computeSplits est cfg (.strippedByLineCount L) R).length,
        (computeSplits est cfg (.strippedByLineCount L) R).get j
          = { x := R.x,
              y := R.y + ((j.1 * (R.h / ceilDiv R.h L)
                    + min j.1 (R.h % ceilDiv R.h L) : Nat) : Int),
              w := R.w,
              h := R.h / ceilDiv R.h L
                    + if j.1 < R.h % ceilDiv R.h L then 1 else 0 }) ∧
    (∀ est2 : Region → Nat, ∀ cfg2 : Nat,
        computeSplits est2 cfg2 (.strippedByLineCount L) R
          = computeSplits est cfg (.strippedByLineCount L) R) ∧
    (computeSplits est cfg (.strippedByLineCount 100)
        ⟨0, 0, 1000, 500⟩).length = 5 ∧
    (computeSplits est cfg (.strippedByLineCount 100) ⟨0, 0, 1000, 500⟩)[0]?
        = some ⟨0, 0, 1000, 100⟩ ∧
    (computeSplits est cfg (.strippedByLineCount 100) ⟨0, 0, 1000, 500⟩)[4]?
        = some ⟨0, 400, 1000, 100⟩ := by
  have hnd : ¬(R.w = 0 ∨ R.h = 0) := by omega
  have hmin : stripCount R (ceilDiv R.h L) = ceilDiv R.h L := by
    unfold stripCount
    have := ceilDiv_le_self R.h L hL
    omega
  rw [computeSplits_lineCount est cfg L R hnd]
  refine ⟨?_, ?_, ?_, rfl, rfl, rfl⟩
  · rw [stripTable_length, hmin]
  · intro j
    rw [stripTable_get]
    unfold stripSplit stripOffset
    rw [hmin]
  · intro est2 cfg2
    rw [computeSplits_lineCount est2 cfg2 L R hnd]

/-- Witness for the amended claim C2 at a concrete region and line
count. -/
theorem C2_strippedByLineCount_splits_witness :
    (computeSplits (fun _ => 0) 0 (.strippedByLineCount 3)
        ⟨0, 0, 2, 10⟩).length = ceilDiv 10 3 :=
  (C2_strippedByLineCount_splits (fun _ => 0) 0 3 ⟨0, 0, 2, 10⟩
    (by decide) (by decide) (by decide)).1

/-- Counterexample to claim C4 as stated: the bias factor applied by
default, taken from the declaration `double bias = 1.0` in the header,
equals one and is therefore not strictly less than 1: no strict safety
margin is applied by default. -/
theorem C4_defaultBias_counterexample :
    defaultBias = 1 ∧ ¬ defaultBias < 1 := by
  constructor
  · rfl
  · norm_num [defaultBias]

/-- Claim C4 (amended): in the budget-driven modes the optimal-division
search accepts a candidate division count exactly when the estimated
footprint of its candidate split is at most the bias factor times the
budget (and a count below the hard ceiling is returned by the search
exactly when its acceptance test holds); the bias factor applied by
default is exactly 1, not strictly less than 1. -/
theorem C4_accept_condition (est : Region → Nat) (budget bias : ℚ)
    (cand : Region) :
    (acceptCandidate est budget bias cand = true
        ↔ (est cand : ℚ) ≤ bias * budget) ∧
    (∀ accept : Nat → Bool, ∀ hardCeil n : Nat, n < hardCeil →
        (optimalSearchFrom accept hardCeil n = n ↔ accept n = true)) ∧
    defaultBias = 1 := by
  refine ⟨?_, ?_, rfl⟩
  · simp [acceptCandidate]
  · intro accept hardCeil n hn
    exact optimalSearchFrom_stops_iff accept hardCeil n hn

/-- Witness for the amended claim C4 at concrete inputs. -/
theorem C4_accept_condition_witness :
    (acceptCandidate (fun _ => 2) 4 1 ⟨0, 0, 1, 1⟩ = true
        ↔ (((fun _ => 2 : Region → Nat) ⟨0, 0, 1, 1⟩ : Nat) : ℚ) ≤ 1 * 4) ∧
    (optimalSearchFrom (fun _ => true) 5 1 = 1
        ↔ (fun _ => true : Nat → Bool) 1 = true) :=
  ⟨(C4_accept_condition (fun _ => 2) 4 1 ⟨0, 0, 1, 1⟩).1,
   (C4_accept_condition (fun _ => 2) 4 1 ⟨0, 0, 1, 1⟩).2.1
     (fun _ => true) 5 1 (by decide)⟩

/-- Claim C5: for every estimator behaviour the optimal-division search
terminates with a positive division count that never exceeds the hard
ceiling given by the number of elementary units along the split axis, and
with an estimator whose footprint never fits the budget it returns exactly
the ceiling (the finest granularity is accepted rather than failing). -/
theorem C5_search_bounded_total (est : Region → Nat) (cfg aRAM : Nat)
    (bias : ℚ) (cand : Nat → Region) (hardCeil : Nat) (h1 : 0 < hardCeil) :
    EstimateOptimalNumberOfDivisions est cfg aRAM bias cand hardCeil ≤ hardCeil ∧
    0 < EstimateOptimalNumberOfDivisions est cfg aRAM bias cand hardCeil ∧
    ((∀ n, acceptCandidate est
          ((GetActualAvailableRAMInBytes cfg aRAM : Nat) : ℚ) bias (cand n)
          = false) →
      EstimateOptimalNumberOfDivisions est cfg aRAM bias cand hardCeil
        = hardCeil) := by
  refine ⟨EstimateOptimalNumberOfDivisions_le est cfg aRAM bias cand hardCeil,
    EstimateOptimalNumberOfDivisions_pos est cfg aRAM bias cand hardCeil h1, ?_⟩
  intro hrej
  unfold EstimateOptimalNumberOfDivisions
  exact optimalSearchFrom_reject _ hardCeil hrej 1

/-- Witness for claim C5: an estimator reporting a footprint above the
budget for every candidate drives the search exactly to the ceiling. -/
theorem C5_search_bounded_total_witness :
    EstimateOptimalNumberOfDivisions (fun _ => 2) 0 1 1
      (fun _ => ⟨0, 0, 1, 1⟩) 5 = 5 :=
  (C5_search_bounded_total (fun _ => 2) 0 1 1 (fun _ => ⟨0, 0, 1, 1⟩) 5
    (by decide)).2.2 (fun n => by
      simp only [acceptCandidate, GetActualAvailableRAMInBytes]
      norm_num)

lemma EstimateOptimalNumberOfDivisions_congr (est : Region → Nat)
    (cfg aRAM cfg2 aRAM2 : Nat) (bias : ℚ) (cand : Nat → Region) (hardCeil : Nat)
    (hres : GetActualAvailableRAMInBytes cfg aRAM
      = GetActualAvailableRAMInBytes cfg2 aRAM2) :
    EstimateOptimalNumberOfDivisions est cfg aRAM bias cand hardCeil
      = EstimateOptimalNumberOfDivisions est cfg2 aRAM2 bias cand hardCeil := by
  unfold EstimateOptimalNumberOfDivisions
  simp only [hres]

lemma tiledBudgetDim_congr (est : Region → Nat) (cfg b cfg2 b2 : Nat) (R : Region)
    (hres : GetActualAvailableRAMInBytes cfg b
      = GetActualAvailableRAMInBytes cfg2 b2) :
    tiledBudgetDim est cfg b R = tiledBudgetDim est cfg2 b2 R := by
  unfold tiledBudgetDim
  rw [EstimateOptimalNumberOfDivisions_congr est cfg b cfg2 b2 defaultBias
    (fun n => tileSplit R (tileDimForDivisions R n) (tileDimForDivisions R n) 0)
    (R.w * R.h) hres]

/-- Claim C6: a zero budget is a sentinel resolved from the process-wide
configuration at preparation time; a non-zero budget is used as given and
the configuration is not consulted; the configuration is re-read on each
preparation call. -/
theorem C6_zero_budget_sentinel :
    (∀ cfg : Nat, GetActualAvailableRAMInBytes cfg 0 = cfg) ∧
    (∀ cfg b : Nat, b ≠ 0 → GetActualAvailableRAMInBytes cfg b = b) ∧
    (∀ (est : Region → Nat) (R : Region) (cfg cfg2 b : Nat), b ≠ 0 →
        computeSplits est cfg (.strippedByBudget b) R
            = computeSplits est cfg2 (.strippedByBudget b) R ∧
        computeSplits est cfg (.tiledByBudget b) R
            = computeSplits est cfg2 (.tiledByBudget b) R) ∧
    (∀ (est : Region → Nat) (R : Region) (cfg : Nat),
        computeSplits est cfg (.strippedByBudget 0) R
            = computeSplits est cfg (.strippedByBudget cfg) R ∧
        computeSplits est cfg (.tiledByBudget 0) R
            = computeSplits est cfg (.tiledByBudget cfg) R) ∧
    (∀ (est : Region → Nat) (cfg1 cfg2 : Nat) (R : Region) (s : PlannerState),
        (PrepareStreaming est cfg2 R (PrepareStreaming est cfg1 R s)).splitTable
            = computeSplits est cfg2 s.mode R) := by
  refine ⟨fun cfg => rfl, ?_, ?_, ?_, fun est cfg1 cfg2 R s => rfl⟩
  · intro cfg b hb
    unfold GetActualAvailableRAMInBytes
    rw [if_neg hb]
  · intro est R cfg cfg2 b hb
    have hres : GetActualAvailableRAMInBytes cfg b
        = GetActualAvailableRAMInBytes cfg2 b := by
      unfold GetActualAvailableRAMInBytes
      rw [if_neg hb, if_neg hb]
    by_cases hnd : R.w = 0 ∨ R.h = 0
    · constructor
      · unfold computeSplits
        rw [if_pos hnd, if_pos hnd]
      · unfold computeSplits
        rw [if_pos hnd, if_pos hnd]
    · constructor
      · rw [computeSplits_stripBudget est cfg b R hnd,
          computeSplits_stripBudget est cfg2 b R hnd,
          EstimateOptimalNumberOfDivisions_congr est cfg b cfg2 b defaultBias
            (fun n => stripSplit R n 0) R.h hres]
      · rw [computeSplits_tileBudget est cfg b R hnd,
          computeSplits_tileBudget est cfg2 b R hnd,
          tiledBudgetDim_congr est cfg b cfg2 b R hres]
  · intro est R cfg
    have hres : GetActualAvailableRAMInBytes cfg 0
        = GetActualAvailableRAMInBytes cfg cfg := by
      unfold GetActualAvailableRAMInBytes
      rcases eq_or_ne cfg 0 with hc | hc
      · simp [hc]
      · simp [hc]
    by_cases hnd : R.w = 0 ∨ R.h = 0
    · constructor
      · unfold computeSplits
        rw [if_pos hnd, if_pos hnd]
      · unfold computeSplits
        rw [if_pos hnd, if_pos hnd]
    · constructor
      · rw [computeSplits_stripBudget est cfg 0 R hnd,
          computeSplits_stripBudget est cfg cfg R hnd,
          EstimateOptimalNumberOfDivisions_congr est cfg 0 cfg cfg defaultBias
            (fun n => stripSplit R n 0) R.h hres]
      · rw [computeSplits_tileBudget est cfg 0 R hnd,
          computeSplits_tileBudget est cfg cfg R hnd,
          tiledBudgetDim_congr est cfg 0 cfg cfg R hres]

/-- Witness for claim C6 at concrete budgets and configuration values. -/
theorem C6_zero_budget_sentinel_witness :
    GetActualAvailableRAMInBytes 5 0 = 5 ∧ GetActualAvailableRAMInBytes 5 3 = 3 :=
  ⟨C6_zero_budget_sentinel.1 5, C6_zero_budget_sentinel.2.1 5 3 (by decide)⟩

/-- Claim C7: after preparation, `GetSplit i` with `i` at or beyond the
split count is signaled as an out-of-range failure (`none`), never
silently clamped; for `i` within range it returns the i-th memoized
region. -/
theorem C7_GetSplit_range (est : Region → Nat) (cfg : Nat) (R : Region)
    (s : PlannerState) (i : Nat) :
    ((GetNumberOfSplits (PrepareStreaming est cfg R s)).1 ≤ i →
        (GetSplit (PrepareStreaming est cfg R s) i).1 = none) ∧
    (i < (GetNumberOfSplits (PrepareStreaming est cfg R s)).1 →
        ∃ r : Region, (GetSplit (PrepareStreaming est cfg R s) i).1 = some r ∧
          (computeSplits est cfg s.mode R)[i]? = some r) := by
  constructor
  · intro hge
    simp only [GetNumberOfSplits, PrepareStreaming] at hge
    simp only [GetSplit, PrepareStreaming]
    rw [if_neg (by omega)]
  · intro hlt
    simp only [GetNumberOfSplits, PrepareStreaming] at hlt
    simp only [GetSplit, PrepareStreaming]
    rw [if_pos hlt]
    exact ⟨(computeSplits est cfg s.mode R)[i],
      List.getElem?_eq_getElem hlt, List.getElem?_eq_getElem hlt⟩

/-- Witness for claim C7: out-of-range and in-range queries at a concrete
prepared plan. -/
theorem C7_GetSplit_range_witness :
    (GetSplit (PrepareStreaming (fun _ => 0) 0 ⟨0, 0, 4, 4⟩
        ⟨.strippedByLineCount 2, 0, ⟨0, 0, 0, 0⟩, .strip, []⟩) 5).1 = none :=
  (C7_GetSplit_range (fun _ => 0) 0 ⟨0, 0, 4, 4⟩
      ⟨.strippedByLineCount 2, 0, ⟨0, 0, 0, 0⟩, .strip, []⟩ 5).1 (by decide)

/-- Claim C8: preparing a degenerate region (either extent zero) is not an
error: the computed split table is empty and the split count is zero, in
every mode. -/
theorem C8_degenerate_region (est : Region → Nat) (cfg : Nat)
    (mode : StreamingMode) (R : Region) (s : PlannerState)
    (hdeg : R.w = 0 ∨ R.h = 0) :
    computeSplits est cfg mode R = [] ∧
    (GetNumberOfSplits (PrepareStreaming est cfg R s)).1 = 0 ∧
    (PrepareStreaming est cfg R s).splitTable = [] := by
  have h1 : ∀ m : StreamingMode, computeSplits est cfg m R = [] := by
    intro m
    unfold computeSplits
    rw [if_pos hdeg]
  refine ⟨h1 mode, ?_, ?_⟩
  · simp only [GetNumberOfSplits, PrepareStreaming, h1 s.mode]
    rfl
  · simp only [PrepareStreaming, h1 s.mode]

/-- Witness for claim C8 at a concrete degenerate region. -/
theorem C8_degenerate_region_witness :
    computeSplits (fun _ => 0) 7 (.tiledByBudget 9) ⟨3, 4, 5, 0⟩ = [] :=
  (C8_degenerate_region (fun _ => 0) 7 (.tiledByBudget 9) ⟨3, 4, 5, 0⟩
      ⟨.tiledByBudget 9, 0, ⟨0, 0, 0, 0⟩, .strip, []⟩ (by decide)).1

/-- Claim C9: preparation is deterministic and idempotent: preparing an
already-prepared planner again with the same inputs leaves it unchanged,
and two planners with the same configured mode prepared with identical
estimator, configuration and region memoize identical split tables and
counts, regardless of their prior memoized state. -/
theorem C9_prepare_deterministic (est : Region → Nat) (cfg : Nat)
    (R : Region) (s s2 : PlannerState) (hm : s.mode = s2.mode) :
    PrepareStreaming est cfg R (PrepareStreaming est cfg R s)
        = PrepareStreaming est cfg R s ∧
    (PrepareStreaming est cfg R s).splitTable
        = (PrepareStreaming est cfg R s2).splitTable ∧
    (PrepareStreaming est cfg R s).m_ComputedNumberOfSplits
        = (PrepareStreaming est cfg R s2).m_ComputedNumberOfSplits := by
  refine ⟨rfl, ?_, ?_⟩
  · simp only [PrepareStreaming, hm]
  · simp only [PrepareStreaming, hm]

/-- Witness for claim C9 at two concrete planner states sharing a mode. -/
theorem C9_prepare_deterministic_witness :
    (PrepareStreaming (fun _ => 0) 0 ⟨0, 0, 3, 3⟩
        ⟨.strippedByLineCount 2, 0, ⟨0, 0, 0, 0⟩, .strip, []⟩).splitTable
      = (PrepareStreaming (fun _ => 0) 0 ⟨0, 0, 3, 3⟩
        ⟨.strippedByLineCount 2, 9, ⟨1, 1, 1, 1⟩, .tile 4 4,
          [⟨0, 0, 1, 1⟩]⟩).splitTable :=
  (C9_prepare_deterministic (fun _ => 0) 0 ⟨0, 0, 3, 3⟩
      ⟨.strippedByLineCount 2, 0, ⟨0, 0, 0, 0⟩, .strip, []⟩
      ⟨.strippedByLineCount 2, 9, ⟨1, 1, 1, 1⟩, .tile 4 4, [⟨0, 0, 1, 1⟩]⟩
      (by decide)).2.1

lemma runAccessor_snd (s : PlannerState) (op : AccessorOp) :
    (runAccessor s op).2 = s := by
  cases op <;> rfl

lemma runAccessors_spec (s : PlannerState) (ops : List AccessorOp) :
    (runAccessors s ops).2 = s ∧
    (runAccessors s ops).1 = ops.map (fun op => (runAccessor s op).1) := by
  induction ops with
  | nil => exact ⟨rfl, rfl⟩
  | cons op ops ih =>
      simp only [runAccessors, runAccessor_snd]
      exact ⟨ih.1, by rw [List.map_cons, ih.2]⟩

/-- Claim C10: the accessors are pure observers: any sequence of
`GetNumberOfSplits` and `GetSplit` calls leaves the planner state (and in
particular its memoized `m_Region`, `m_ComputedNumberOfSplits` and
`m_Splitter`) unchanged, every response is determined by the initial
state, and repeated identical calls return identical values. -/
theorem C10_accessors_pure (s : PlannerState) (ops : List AccessorOp) :
    (runAccessors s ops).2 = s ∧
    (runAccessors s ops).2.m_Region = s.m_Region ∧
    (runAccessors s ops).2.m_ComputedNumberOfSplits
        = s.m_ComputedNumberOfSplits ∧
    (runAccessors s ops).2.m_Splitter = s.m_Splitter ∧
    (runAccessors s ops).1 = ops.map (fun op => (runAccessor s op).1) ∧
    ∀ i j : Nat, ops[i]? = ops[j]? →
      (runAccessors s ops).1[i]? = (runAccessors s ops).1[j]? := by
  obtain ⟨h1, h2⟩ := runAccessors_spec s ops
  refine ⟨h1, by rw [h1], by rw [h1], by rw [h1], h2, ?_⟩
  intro i j hij
  rw [h2, List.getElem?_map, List.getElem?_map, hij]

/-- Witness for claim C10: a concrete accessor sequence leaves a concrete
planner state unchanged. -/
theorem C10_accessors_pure_witness :
    (runAccessors
        ⟨.strippedByLineCount 1, 2, ⟨0, 0, 2, 2⟩, .strip,
          [⟨0, 0, 2, 1⟩, ⟨0, 1, 2, 1⟩]⟩
        [.countQuery, .splitQuery 0, .splitQuery 5, .countQuery]).2
      = ⟨.strippedByLineCount 1, 2, ⟨0, 0, 2, 2⟩, .strip,
          [⟨0, 0, 2, 1⟩, ⟨0, 1, 2, 1⟩]⟩ :=
  (C10_accessors_pure
    ⟨.strippedByLineCount 1, 2, ⟨0, 0, 2, 2⟩, .strip,
      [⟨0, 0, 2, 1⟩, ⟨0, 1, 2, 1⟩]⟩
    [.countQuery, .splitQuery 0, .splitQuery 5, .countQuery]).1

end OTB
